import Mathlib

/-!
Verification of the omok-ai repository: the gomoku rules engine
(`environment/src/lib.rs`) and the parallel MCTS executor
(`alpha-zero/src/parallel_mcts_executor.rs`).

Rust `f32` quantities are embedded as exact rationals (`ℚ`); machine
integers as `ℕ`/`ℤ`.  The `mcts` crate (node tree, `select_leaf`,
`expand`, `propagate`) is not part of the sources; those operations are
modelled from the specification and marked as such.
-/

set_option maxRecDepth 8192

namespace OmokAI

/-- `f32::EPSILON` as an exact rational: 2⁻²³ (given by its reduced
fraction 1/8388608 so that kernel evaluation never needs rational
normalisation). -/
def fEPSILON : ℚ := ⟨1, 8388608, by decide, Nat.coprime_one_left _⟩

lemma fEPSILON_eq : fEPSILON = 1 / 2 ^ 23 := by
  rw [fEPSILON, Rat.mk'_eq_divInt, Rat.divInt_eq_div]
  norm_num

lemma fEPSILON_pos : 0 < fEPSILON := by decide

/-- `f32::abs`, as a directly computable rational function. -/
def fabs (q : ℚ) : ℚ := if q < 0 then -q else q

lemma fabs_eq_abs (q : ℚ) : fabs q = |q| := by
  rw [fabs, abs]
  rcases lt_trichotomy q 0 with h | h | h
  · rw [if_pos h, max_eq_right (by linarith)]
  · subst h
    norm_num
  · rw [if_neg (by linarith), max_eq_left (by linarith)]

/-- `environment::Turn`. -/
inductive Turn where
  | Black
  | White
deriving DecidableEq

/-- `Turn::opponent`. -/
def Turn.opponent : Turn → Turn
  | .Black => .White
  | .White => .Black

/-- `environment::GameStatus`. -/
inductive GameStatus where
  | InProgress
  | Draw
  | BlackWin
  | WhiteWin
deriving DecidableEq

/-- `Environment::BOARD_SIZE`. -/
abbrev boardSize : ℕ := 19

/-- `Environment::SERIAL_STONE_COUNT`. -/
abbrev serialStoneCount : ℕ := 5

/-- Number of cells of the board, `BOARD_SIZE * BOARD_SIZE`. -/
abbrev boardCells : ℕ := boardSize * boardSize

/-- `environment::Environment`.  The board stores `f32` cell values
(0 empty, 1 black, -1 white), embedded as rationals and indexed by
`usize`, embedded as `ℕ` (only indices below `boardCells` are ever
used by the code). -/
structure Environment where
  turn : Turn
  board : ℕ → ℚ
  legal_moves : ℕ → Bool
  legal_move_count : ℕ

/-- `Environment::new`. -/
def Environment.new : Environment :=
  { turn := Turn.Black
    board := fun _ => 0
    legal_moves := fun _ => true
    legal_move_count := boardCells }

/-- Flat board index of the cell at integer coordinates `(x, y)`
(the code computes `(y * Self::BOARD_SIZE as isize + x) as usize`
only after checking that both coordinates are in range). -/
def cellIndex (x y : ℤ) : ℕ := (y * (boardSize : ℤ) + x).toNat

/-- The loop body of `Environment::count_serial_stones`: walk the given
offset list (each offset is taken from the base coordinates `(x, y)`),
counting as long as each visited cell is in range, non-empty
(`stone.abs() ≥ f32::EPSILON`), and of the mover's colour
(`(0 < stone) == is_black`); stop (`break`) at the first failure. -/
def serialCount (board : ℕ → ℚ) (turn : Turn) (x y : ℤ) : List (ℤ × ℤ) → ℕ
  | [] => 0
  | (dx, dy) :: rest =>
    let x2 := x + dx
    let y2 := y + dy
    if x2 < 0 ∨ (boardSize : ℤ) ≤ x2 ∨ y2 < 0 ∨ (boardSize : ℤ) ≤ y2 then 0
    else
      let stone := board (cellIndex x2 y2)
      if fabs stone < fEPSILON then 0
      else if ¬(((0 : ℚ) < stone) ↔ turn = Turn.Black) then 0
      else 1 + serialCount board turn x y rest

/-- `Environment::count_serial_stones(turn, index, offsets)`:
`x = index % BOARD_SIZE`, `y = index / BOARD_SIZE`, then the counting
loop over the offsets. -/
def Environment.count_serial_stones (env : Environment) (turn : Turn) (index : ℕ)
    (offs : List (ℤ × ℤ)) : ℕ :=
  serialCount env.board turn ((index % boardSize : ℕ) : ℤ) ((index / boardSize : ℕ) : ℤ) offs

/-- `Environment::place_stone`: write the mover's stone, mark the cell
illegal, decrement the legal-move count, flip the turn, then test the
four lines through the placed stone for an exact
`SERIAL_STONE_COUNT`; win for the mover beats the draw test, which
beats in-progress.  Returns the status together with the updated
environment (the Rust method mutates `self`). -/
def Environment.place_stone (env : Environment) (index : ℕ) : GameStatus × Environment :=
  let turn := env.turn
  let env2 : Environment :=
    { turn := turn.opponent
      board := Function.update env.board index
        (match turn with | Turn.Black => 1 | Turn.White => -1)
      legal_moves := Function.update env.legal_moves index false
      legal_move_count := env.legal_move_count - 1 }
  let horizontal_count := 1
    + env2.count_serial_stones turn index [(-1, 0), (-2, 0), (-3, 0), (-4, 0), (-5, 0)]
    + env2.count_serial_stones turn index [(1, 0), (2, 0), (3, 0), (4, 0), (5, 0)]
  let vertical_count := 1
    + env2.count_serial_stones turn index [(0, -1), (0, -2), (0, -3), (0, -4), (0, -5)]
    + env2.count_serial_stones turn index [(0, 1), (0, 2), (0, 3), (0, 4), (0, 5)]
  let diagonal_lt_rb_count := 1
    + env2.count_serial_stones turn index [(-1, -1), (-2, -2), (-3, -3), (-4, -4), (-5, -5)]
    + env2.count_serial_stones turn index [(1, 1), (2, 2), (3, 3), (4, 4), (5, 5)]
  let diagonal_lb_rt_count := 1
    + env2.count_serial_stones turn index [(-1, 1), (-2, 2), (-3, 3), (-4, 4), (-5, 5)]
    + env2.count_serial_stones turn index [(1, -1), (2, -2), (3, -3), (4, -4), (5, -5)]
  let status :=
    if horizontal_count = serialStoneCount ∨ vertical_count = serialStoneCount
        ∨ diagonal_lt_rb_count = serialStoneCount ∨ diagonal_lb_rt_count = serialStoneCount then
      match turn with
      | Turn.Black => GameStatus.BlackWin
      | Turn.White => GameStatus.WhiteWin
    else if env2.legal_move_count = 0 then GameStatus.Draw
    else GameStatus.InProgress
  (status, env2)

/-- The offsets `[(1*dx, 1*dy), (2*dx, 2*dy), …, (len*dx, len*dy)]` of the
`len` cells following `(x, y)` in direction `(dx, dy)`. -/
def dirOffsets (dx dy : ℤ) (len : ℕ) : List (ℤ × ℤ) :=
  (List.range' 1 len).map (fun i : ℕ => ((i : ℤ) * dx, (i : ℤ) * dy))

/-- The length of the maximal contiguous run of the mover's stones next to
`index` in direction `(dx, dy)` (18 steps suffice: no run on a 19×19 board
extends further). -/
def maxRun (board : ℕ → ℚ) (turn : Turn) (index : ℕ) (dx dy : ℤ) : ℕ :=
  serialCount board turn ((index % boardSize : ℕ) : ℤ) ((index / boardSize : ℕ) : ℤ)
    (dirOffsets dx dy 18)

/-- The four line directions through a cell (each line is the union of the
direction and its negation). -/
def winDirections : List (ℤ × ℤ) := [(1, 0), (0, 1), (1, 1), (1, -1)]

lemma serialCount_le_length (board : ℕ → ℚ) (turn : Turn) (x y : ℤ) (l : List (ℤ × ℤ)) :
    serialCount board turn x y l ≤ l.length := by
  induction l with
  | nil => simp [serialCount]
  | cons hd tl ih =>
    obtain ⟨dx, dy⟩ := hd
    simp only [serialCount, List.length_cons]
    split
    · omega
    · split
      · omega
      · split
        · omega
        · omega

lemma serialCount_append (board : ℕ → ℚ) (turn : Turn) (x y : ℤ) (l1 l2 : List (ℤ × ℤ)) :
    serialCount board turn x y (l1 ++ l2) =
      if serialCount board turn x y l1 = l1.length
      then l1.length + serialCount board turn x y l2
      else serialCount board turn x y l1 := by
  induction l1 with
  | nil => simp [serialCount]
  | cons hd tl ih =>
    obtain ⟨dx, dy⟩ := hd
    have hle := serialCount_le_length board turn x y tl
    simp only [List.cons_append, serialCount, List.length_cons]
    split
    · simp
    · split
      · simp
      · split
        · simp
        · simp only [List.append_eq] at *
          rw [ih]
          split_ifs <;> omega

/-- The count over a list is the count over any extension, capped at the
list's length. -/
lemma serialCount_eq_min (board : ℕ → ℚ) (turn : Turn) (x y : ℤ) (l1 l2 : List (ℤ × ℤ)) :
    serialCount board turn x y l1 =
      min (serialCount board turn x y (l1 ++ l2)) l1.length := by
  have hle := serialCount_le_length board turn x y l1
  rw [serialCount_append]
  by_cases h : serialCount board turn x y l1 = l1.length
  · simp [h]
  · simp [h]
    omega

lemma dirOffsets_split (dx dy : ℤ) :
    dirOffsets dx dy 18 = dirOffsets dx dy 5
      ++ (List.range' 6 13).map (fun i : ℕ => ((i : ℤ) * dx, (i : ℤ) * dy)) := by
  have h : List.range' 1 18 = List.range' 1 5 ++ List.range' 6 13 := by decide
  simp [dirOffsets, h]

lemma dirOffsets_length (dx dy : ℤ) (n : ℕ) : (dirOffsets dx dy n).length = n := by
  rw [dirOffsets, List.length_map, List.length_range']

/-- The five-cell count used by `place_stone` is the maximal run capped
at five. -/
lemma count_five_eq_min_maxRun (env : Environment) (turn : Turn) (index : ℕ) (dx dy : ℤ) :
    env.count_serial_stones turn index (dirOffsets dx dy 5) =
      min (maxRun env.board turn index dx dy) 5 := by
  rw [Environment.count_serial_stones,
    serialCount_eq_min env.board turn ((index % boardSize : ℕ) : ℤ) ((index / boardSize : ℕ) : ℤ)
      (dirOffsets dx dy 5)
      ((List.range' 6 13).map (fun i : ℕ => ((i : ℤ) * dx, (i : ℤ) * dy))),
    ← dirOffsets_split, dirOffsets_length]
  rfl

/-- The environment after the mutation part of `place_stone` (stone
written, cell made illegal, count decremented, turn flipped). -/
def Environment.afterPlace (env : Environment) (index : ℕ) : Environment :=
  { turn := env.turn.opponent
    board := Function.update env.board index
      (match env.turn with | Turn.Black => 1 | Turn.White => -1)
    legal_moves := Function.update env.legal_moves index false
    legal_move_count := env.legal_move_count - 1 }

lemma place_stone_snd (env : Environment) (index : ℕ) :
    (env.place_stone index).2 = env.afterPlace index := rfl

/-- The five-cell line total `1 + count(backwards) + count(forwards)` that
`place_stone` compares against `SERIAL_STONE_COUNT` for the line of
direction `d`. -/
def lineFive (env : Environment) (index : ℕ) (d : ℤ × ℤ) : ℕ :=
  1 + (env.afterPlace index).count_serial_stones env.turn index (dirOffsets (-d.1) (-d.2) 5)
    + (env.afterPlace index).count_serial_stones env.turn index (dirOffsets d.1 d.2 5)

lemma place_stone_fst (env : Environment) (index : ℕ) :
    (env.place_stone index).1 =
      if lineFive env index (1, 0) = serialStoneCount
          ∨ lineFive env index (0, 1) = serialStoneCount
          ∨ lineFive env index (1, 1) = serialStoneCount
          ∨ lineFive env index (1, -1) = serialStoneCount then
        match env.turn with
        | Turn.Black => GameStatus.BlackWin
        | Turn.White => GameStatus.WhiteWin
      else if (env.afterPlace index).legal_move_count = 0 then GameStatus.Draw
      else GameStatus.InProgress := by
  have h1 : dirOffsets (-1) (-0) 5 = [((-1 : ℤ), (0 : ℤ)), (-2, 0), (-3, 0), (-4, 0), (-5, 0)] := by
    decide
  have h2 : dirOffsets 1 0 5 = [((1 : ℤ), (0 : ℤ)), (2, 0), (3, 0), (4, 0), (5, 0)] := by decide
  have h3 : dirOffsets (-0) (-1) 5 = [((0 : ℤ), (-1 : ℤ)), (0, -2), (0, -3), (0, -4), (0, -5)] := by
    decide
  have h4 : dirOffsets 0 1 5 = [((0 : ℤ), (1 : ℤ)), (0, 2), (0, 3), (0, 4), (0, 5)] := by decide
  have h5 : dirOffsets (-1) (-1) 5
      = [((-1 : ℤ), (-1 : ℤ)), (-2, -2), (-3, -3), (-4, -4), (-5, -5)] := by decide
  have h6 : dirOffsets 1 1 5 = [((1 : ℤ), (1 : ℤ)), (2, 2), (3, 3), (4, 4), (5, 5)] := by decide
  have h7 : dirOffsets (-1) (-(-1)) 5
      = [((-1 : ℤ), (1 : ℤ)), (-2, 2), (-3, 3), (-4, 4), (-5, 5)] := by decide
  have h8 : dirOffsets 1 (-1) 5 = [((1 : ℤ), (-1 : ℤ)), (2, -2), (3, -3), (4, -4), (5, -5)] := by
    decide
  simp only [lineFive, Environment.place_stone, Environment.afterPlace,
    h1, h2, h3, h4, h5, h6, h7, h8]

lemma lineFive_eq_min (env : Environment) (index : ℕ) (d : ℤ × ℤ) :
    lineFive env index d =
      1 + min (maxRun (env.afterPlace index).board env.turn index (-d.1) (-d.2)) 5
        + min (maxRun (env.afterPlace index).board env.turn index d.1 d.2) 5 := by
  rw [lineFive, count_five_eq_min_maxRun, count_five_eq_min_maxRun]

lemma lineFive_eq_five_iff (env : Environment) (index : ℕ) (d : ℤ × ℤ) :
    lineFive env index d = serialStoneCount ↔
      1 + maxRun (env.afterPlace index).board env.turn index (-d.1) (-d.2)
        + maxRun (env.afterPlace index).board env.turn index d.1 d.2 = serialStoneCount := by
  rw [lineFive_eq_min]
  simp only [serialStoneCount]
  omega

/-- C10: `Environment::place_stone` returns `BlackWin` or `WhiteWin` iff one
of the four lines through the just-placed stone contains exactly
`SERIAL_STONE_COUNT` (5) consecutive stones of the mover's colour — the
placed stone plus the maximal contiguous same-colour runs on its two
sides; the winning colour is the mover's; and on a line whose run through
the stone has length six or more, the code's equality test
`1 + count(backwards) + count(forwards) = SERIAL_STONE_COUNT` fails, so an
overline is never reported as a win by that line. -/
theorem place_stone_win_iff_exact_five (env : Environment) (index : ℕ) :
    (((env.place_stone index).1 = GameStatus.BlackWin ∨
        (env.place_stone index).1 = GameStatus.WhiteWin) ↔
      ∃ d ∈ winDirections,
        1 + maxRun (env.place_stone index).2.board env.turn index (-d.1) (-d.2)
          + maxRun (env.place_stone index).2.board env.turn index d.1 d.2
          = serialStoneCount) ∧
    ((env.place_stone index).1 = GameStatus.BlackWin → env.turn = Turn.Black) ∧
    ((env.place_stone index).1 = GameStatus.WhiteWin → env.turn = Turn.White) ∧
    (∀ d ∈ winDirections,
      serialStoneCount + 1 ≤
          1 + maxRun (env.place_stone index).2.board env.turn index (-d.1) (-d.2)
            + maxRun (env.place_stone index).2.board env.turn index d.1 d.2 →
      1 + (env.place_stone index).2.count_serial_stones env.turn index
            (dirOffsets (-d.1) (-d.2) 5)
        + (env.place_stone index).2.count_serial_stones env.turn index (dirOffsets d.1 d.2 5)
        ≠ serialStoneCount) := by
  have hexists :
      (∃ d ∈ winDirections,
          1 + maxRun (env.place_stone index).2.board env.turn index (-d.1) (-d.2)
            + maxRun (env.place_stone index).2.board env.turn index d.1 d.2
            = serialStoneCount) ↔
        (lineFive env index (1, 0) = serialStoneCount
          ∨ lineFive env index (0, 1) = serialStoneCount
          ∨ lineFive env index (1, 1) = serialStoneCount
          ∨ lineFive env index (1, -1) = serialStoneCount) := by
    rw [place_stone_snd]
    simp only [winDirections, List.mem_cons, List.mem_singleton, List.not_mem_nil, or_false,
      exists_eq_or_imp, exists_eq_left, lineFive_eq_five_iff]
  refine ⟨?_, ?_, ?_, ?_⟩
  · rw [hexists, place_stone_fst]
    by_cases hC : lineFive env index (1, 0) = serialStoneCount
        ∨ lineFive env index (0, 1) = serialStoneCount
        ∨ lineFive env index (1, 1) = serialStoneCount
        ∨ lineFive env index (1, -1) = serialStoneCount
    · rw [if_pos hC]
      refine iff_of_true ?_ hC
      cases env.turn
      · exact Or.inl rfl
      · exact Or.inr rfl
    · rw [if_neg hC]
      refine iff_of_false ?_ hC
      split
      · rintro (h | h) <;> exact GameStatus.noConfusion h
      · rintro (h | h) <;> exact GameStatus.noConfusion h
  · rw [place_stone_fst]
    by_cases hC : lineFive env index (1, 0) = serialStoneCount
        ∨ lineFive env index (0, 1) = serialStoneCount
        ∨ lineFive env index (1, 1) = serialStoneCount
        ∨ lineFive env index (1, -1) = serialStoneCount
    · rw [if_pos hC]
      cases h : env.turn <;> simp
    · rw [if_neg hC]
      split <;> simp
  · rw [place_stone_fst]
    by_cases hC : lineFive env index (1, 0) = serialStoneCount
        ∨ lineFive env index (0, 1) = serialStoneCount
        ∨ lineFive env index (1, 1) = serialStoneCount
        ∨ lineFive env index (1, -1) = serialStoneCount
    · rw [if_pos hC]
      cases h : env.turn <;> simp
    · rw [if_neg hC]
      split <;> simp
  · intro d _ hsix
    rw [place_stone_snd] at hsix ⊢
    have h := lineFive_eq_min env index d
    rw [lineFive] at h
    simp only [serialStoneCount] at hsix ⊢
    omega

/-- Witness for C10: on a board with black stones on cells 1–5 and black to
move, placing at cell 0 yields a contiguous run of six; the overline is not
reported as a black win. -/
theorem place_stone_win_iff_exact_five_witness :
    ((⟨Turn.Black, fun a => if 1 ≤ a ∧ a ≤ 5 then 1 else 0,
        fun a => decide ¬(1 ≤ a ∧ a ≤ 5), 355⟩ : Environment).place_stone 0).1
      ≠ GameStatus.BlackWin := by
  intro hwin
  have h := (place_stone_win_iff_exact_five
    (⟨Turn.Black, fun a => if 1 ≤ a ∧ a ≤ 5 then 1 else 0,
        fun a => decide ¬(1 ≤ a ∧ a ≤ 5), 355⟩ : Environment) 0).1
  have hno : ¬ ∃ d ∈ winDirections,
      1 + maxRun (((⟨Turn.Black, fun a => if 1 ≤ a ∧ a ≤ 5 then 1 else 0,
          fun a => decide ¬(1 ≤ a ∧ a ≤ 5), 355⟩ : Environment).place_stone 0).2.board)
          Turn.Black 0 (-d.1) (-d.2)
        + maxRun (((⟨Turn.Black, fun a => if 1 ≤ a ∧ a ≤ 5 then 1 else 0,
          fun a => decide ¬(1 ≤ a ∧ a ≤ 5), 355⟩ : Environment).place_stone 0).2.board)
          Turn.Black 0 d.1 d.2 = serialStoneCount := by decide
  exact hno (h.mp (Or.inl hwin))

/-! ## MCTS data model

`alpha_zero::BoardState` and the `mcts` crate (`Node`, `MCTS::select_leaf`,
`MCTS::expand`, `Node::propagate`) are not among the given sources — only
the executor that calls them is.  They are modelled from the spec below;
every such definition is marked `Modelled from the spec`. -/

/-- Modelled from the spec: `alpha_zero::BoardState` (missing source),
per the spec's State contract (§3): the owned game environment, the
game status produced by the move, the per-action policy distribution, and
the cached terminal outcome `z`.  The executor constructs it as
`BoardState { env, status, policy, z }`. -/
structure BState where
  env : Environment
  status : GameStatus
  policy : ℕ → ℚ
  z : ℚ

/-- Modelled from the spec: the `State::is_terminal` query (missing `mcts`
crate; spec §3 "terminal-status query"): terminal iff the status is not
`InProgress`. -/
def BState.is_terminal (s : BState) : Bool :=
  decide (s.status ≠ GameStatus.InProgress)

/-- Modelled from the spec: `mcts::Node` (missing source), per the spec's
Node data model (§3): visit count `n`, value sum `w`, prior `p`, the
virtual-loss counter, the producing action (`none` only for the root), the
owned state and the ordered child list. -/
inductive GTree : Type where
  | node : (n : ℕ) → (w : ℚ) → (p : ℚ) → (vLoss : ℤ) → (action : Option ℕ) →
      (state : BState) → (children : List GTree) → GTree

def GTree.n : GTree → ℕ
  | .node a _ _ _ _ _ _ => a

def GTree.w : GTree → ℚ
  | .node _ a _ _ _ _ _ => a

def GTree.p : GTree → ℚ
  | .node _ _ a _ _ _ _ => a

def GTree.vLoss : GTree → ℤ
  | .node _ _ _ a _ _ _ => a

def GTree.action : GTree → Option ℕ
  | .node _ _ _ _ a _ _ => a

def GTree.state : GTree → BState
  | .node _ _ _ _ _ a _ => a

def GTree.children : GTree → List GTree
  | .node _ _ _ _ _ _ a => a

/-- `ParallelMCTSExecutor::C_PUCT`. -/
def C_PUCT : ℚ := 1

/-- `compute_ucb_1(parent_n, node, c)` from the executor source, with the
`f32::sqrt` primitive abstracted as a parameter applied to the parent's
visit count:
`q = w / (n + ε)`, `bias = sqrt(parent_n) / (1 + n)`, result
`q + c * p * bias`. -/
def compute_ucb_1 (sqrt : ℕ → ℚ) (parent_n : ℕ) (node : GTree) (c : ℚ) : ℚ :=
  let n := node.n
  let q_s_a := node.w / ((n : ℚ) + fEPSILON)
  let p_s_a := node.p
  let bias := sqrt parent_n / ((1 + n : ℕ) : ℚ)
  q_s_a + c * p_s_a * bias

/-- The selection score exactly as the spec (§4.1) writes it:
`Wc / (Nc + ε) + c_puct * Pc * sqrt(Np) / (1 + Nc)`. -/
def specSelectionScore (sqrt : ℕ → ℚ) (Np Nc : ℕ) (Wc Pc cPuct eps : ℚ) : ℚ :=
  Wc / ((Nc : ℚ) + eps) + cPuct * Pc * sqrt Np / (1 + (Nc : ℚ))

/-- C1: for every parent visit count and candidate child, the computed
selection score equals the spec formula
`Wc / (Nc + ε) + c_puct * Pc * sqrt(Np) / (1 + Nc)` with `ε = f32::EPSILON`
(a tiny positive constant) and the fixed exploration constant
`C_PUCT = 1.0` (the design default). -/
theorem compute_ucb_1_matches_spec (sqrt : ℕ → ℚ) (parent_n : ℕ) (child : GTree) :
    compute_ucb_1 sqrt parent_n child C_PUCT =
      specSelectionScore sqrt parent_n child.n child.w child.p C_PUCT fEPSILON ∧
    0 < fEPSILON ∧ C_PUCT = 1 := by
  refine ⟨?_, fEPSILON_pos, rfl⟩
  rw [compute_ucb_1, specSelectionScore]
  push_cast
  ring

/-- The executor's `terminal_reward` mapping (lines 101–106):
`InProgress ↦ None`, `Draw ↦ Some(0.0)`, `BlackWin ↦ Some(1.0)`,
`WhiteWin ↦ Some(1.0)`. -/
def terminalReward : GameStatus → Option ℚ
  | GameStatus.InProgress => none
  | GameStatus.Draw => some 0
  | GameStatus.BlackWin => some 1
  | GameStatus.WhiteWin => some 1

/-- C6 (counterexample): the outcomes cached for a Black win and for a
White win are the same scalar `1.0`, although the two statuses differ —
the cached value cannot distinguish the two wins, so it is not a game
result from a single fixed perspective. -/
theorem terminalReward_not_distinguishable :
    terminalReward GameStatus.BlackWin = terminalReward GameStatus.WhiteWin ∧
    terminalReward GameStatus.BlackWin = some 1 ∧
    GameStatus.BlackWin ≠ GameStatus.WhiteWin :=
  ⟨rfl, rfl, by decide⟩

/-- C6 (amended): the scalar cached for a terminal successor is taken from
the perspective of the player who just moved, in the range [0, 1]: `1` for
a win by the mover — either colour — `0` for a draw, and nothing for an
in-progress state. -/
theorem terminalReward_mover_perspective :
    terminalReward GameStatus.InProgress = none ∧
    terminalReward GameStatus.Draw = some 0 ∧
    terminalReward GameStatus.BlackWin = some 1 ∧
    terminalReward GameStatus.WhiteWin = some 1 :=
  ⟨rfl, rfl, rfl, rfl⟩

/-! ## The selector closure (C5) -/

/-- Rust's `Iterator::max_by` over an enumerated score list: a fold that
keeps the accumulator only when it is strictly greater than the incoming
element, so an element equal to the accumulator replaces it — ties go to
the LAST maximal element (as `Iterator::max_by` documents). -/
def maxByLast (l : List (ℕ × ℚ)) : Option (ℕ × ℚ) :=
  l.foldl
    (fun acc x =>
      match acc with
      | none => some x
      | some m => if x.2 < m.2 then some m else some x)
    none

/-- The child scores, `children.iter().map(|child| compute_ucb_1(parent_n,
child, C_PUCT))`. -/
def scoresOf (sqrt : ℕ → ℚ) (parent_n : ℕ) (children : List GTree) : List ℚ :=
  children.map (fun child => compute_ucb_1 sqrt parent_n child C_PUCT)

/-- The selector closure the executor passes to `select_leaf`
(lines 50–59): score every child, `enumerate()`, take
`max_by(total_cmp)` and return its index (`None` on an empty child list,
where the Rust code would panic in `unwrap`). -/
def selectChildIndex (sqrt : ℕ → ℚ) (parent_n : ℕ) (children : List GTree) : Option ℕ :=
  (maxByLast (scoresOf sqrt parent_n children).enum).map Prod.fst

/-- An in-progress state on the empty board, used for concrete scenarios. -/
def dummyState : BState :=
  { env := Environment.new
    status := GameStatus.InProgress
    policy := fun _ => 0
    z := 0 }

/-- A child with no visits and prior 1, used for concrete scenarios. -/
def twinChild : GTree := GTree.node 0 0 1 0 none dummyState []

/-- C5 (counterexample): with two identical children — hence exactly equal
scores — the selector returns index `1`, the LAST child in insertion
order, not the first. -/
theorem selectChildIndex_tie_returns_last :
    selectChildIndex (fun _ => 1) 1 [twinChild, twinChild] = some 1 ∧ (1 : ℕ) ≠ 0 := by
  refine ⟨?_, by decide⟩
  rw [selectChildIndex, scoresOf]
  simp [maxByLast, List.enum_cons, List.enumFrom_cons]

lemma maxByLast_append (xs : List (ℕ × ℚ)) (y : ℕ × ℚ) :
    maxByLast (xs ++ [y]) =
      match maxByLast xs with
      | none => some y
      | some m => if y.2 < m.2 then some m else some y := by
  rw [maxByLast, maxByLast, List.foldl_append]
  rfl

/-- `max_by(total_cmp)` over the enumeration of a non-empty score list
returns an index/score pair attaining the maximum; every later index
scores strictly below it (it is the LAST maximum). -/
lemma maxByLast_enum_spec (l : List ℚ) (hne : l ≠ []) :
    ∃ i s, maxByLast l.enum = some (i, s) ∧ i < l.length ∧ l.getD i 0 = s ∧
      (∀ j, j < l.length → l.getD j 0 ≤ s) ∧
      (∀ j, i < j → j < l.length → l.getD j 0 < s) := by
  induction l using List.reverseRecOn with
  | nil => exact absurd rfl hne
  | append_singleton l a ih =>
    rw [List.enum_append, List.enumFrom_singleton, maxByLast_append]
    by_cases hl : l = []
    · subst hl
      refine ⟨0, a, ?_, ?_, ?_, ?_, ?_⟩
      · rfl
      · simp
      · simp
      · intro j hj
        simp only [List.nil_append, List.length_singleton, Nat.lt_one_iff] at hj
        subst hj
        simp
      · intro j h0 hj
        simp only [List.nil_append, List.length_singleton, Nat.lt_one_iff] at hj
        omega
    · obtain ⟨i, s, hmax, hlt, hget, hub, hstrict⟩ := ih hl
      rw [hmax]
      dsimp only
      by_cases hy : a < s
      · rw [if_pos hy]
        refine ⟨i, s, rfl, ?_, ?_, ?_, ?_⟩
        · simp only [List.length_append, List.length_singleton]
          omega
        · rw [List.getD_append l [a] 0 i hlt]
          exact hget
        · intro j hj
          simp only [List.length_append, List.length_singleton] at hj
          rcases lt_or_ge j l.length with h | h
          · rw [List.getD_append l [a] 0 j h]
            exact hub j h
          · have hje : j = l.length := by omega
            subst hje
            rw [List.getD_append_right l [a] 0 l.length le_rfl]
            simpa using le_of_lt hy
        · intro j hij hj
          simp only [List.length_append, List.length_singleton] at hj
          rcases lt_or_ge j l.length with h | h
          · rw [List.getD_append l [a] 0 j h]
            exact hstrict j hij h
          · have hje : j = l.length := by omega
            subst hje
            rw [List.getD_append_right l [a] 0 l.length le_rfl]
            simpa using hy
      · rw [if_neg hy]
        have hsa : s ≤ a := not_lt.mp hy
        refine ⟨l.length, a, rfl, ?_, ?_, ?_, ?_⟩
        · simp
        · rw [List.getD_append_right l [a] 0 l.length le_rfl]
          simp
        · intro j hj
          simp only [List.length_append, List.length_singleton] at hj
          rcases lt_or_ge j l.length with h | h
          · rw [List.getD_append l [a] 0 j h]
            exact le_trans (hub j h) hsa
          · have hje : j = l.length := by omega
            subst hje
            rw [List.getD_append_right l [a] 0 l.length le_rfl]
            simp
        · intro j hij hj
          simp only [List.length_append, List.length_singleton] at hj
          omega

/-- C5 (amended): during descent the selector always returns an index
whose child score is maximal among the node's existing children, and
whenever several children attain the maximal score, the LAST child in
insertion order is selected (deterministic stable argmax; Rust's
`Iterator::max_by` keeps the later of two equal elements), not the first
as claimed. -/
theorem selectChildIndex_last_argmax (sqrt : ℕ → ℚ) (parent_n : ℕ)
    (children : List GTree) (hne : children ≠ []) :
    ∃ i, selectChildIndex sqrt parent_n children = some i ∧ i < children.length ∧
      (∀ j, j < children.length →
        (scoresOf sqrt parent_n children).getD j 0
          ≤ (scoresOf sqrt parent_n children).getD i 0) ∧
      (∀ j, i < j → j < children.length →
        (scoresOf sqrt parent_n children).getD j 0
          < (scoresOf sqrt parent_n children).getD i 0) := by
  have hlen : (scoresOf sqrt parent_n children).length = children.length := by
    rw [scoresOf, List.length_map]
  have hs : scoresOf sqrt parent_n children ≠ [] := by
    intro h
    apply hne
    rw [← List.length_eq_zero, ← hlen, h, List.length_nil]
  obtain ⟨i, s, hmax, hlt, hget, hub, hstrict⟩ := maxByLast_enum_spec _ hs
  refine ⟨i, ?_, ?_, ?_, ?_⟩
  · rw [selectChildIndex, hmax]
    rfl
  · rw [← hlen]
    exact hlt
  · intro j hj
    rw [hget]
    exact hub j (hlen ▸ hj)
  · intro j hij hj
    rw [hget]
    exact hstrict j hij (hlen ▸ hj)

/-- Witness for C5's amended theorem at the concrete one-child list. -/
theorem selectChildIndex_last_argmax_witness :
    ∃ i, selectChildIndex (fun _ => 1) 0 [twinChild] = some i := by
  obtain ⟨i, h, -, -, -⟩ :=
    selectChildIndex_last_argmax (fun _ => 1) 0 [twinChild] (List.cons_ne_nil _ _)
  exact ⟨i, h⟩

/-! ## Placeholder policy (C7) -/

/-- The cell-occupancy test the executor uses when zeroing policy entries
(`env.board[action] != Stone::Empty` in the executor's environment
version), rendered on the rules engine's numeric board with its own
emptiness convention: a cell is empty iff its value is within
`f32::EPSILON` of zero. -/
def Environment.isEmptyCell (env : Environment) (a : ℕ) : Bool :=
  decide (fabs (env.board a) < fEPSILON)

/-- The placeholder policy array before normalisation (executor lines
111–118): every entry `1.0`, then `0.0` for each occupied cell. -/
def rawPolicy (env : Environment) (a : ℕ) : ℚ :=
  if env.isEmptyCell a then 1 else 0

/-- `policy.iter().sum()` over the `BOARD_SIZE * BOARD_SIZE` entries. -/
def rawPolicySum (env : Environment) : ℚ :=
  ∑ a ∈ Finset.range boardCells, rawPolicy env a

/-- The full placeholder-policy computation (executor lines 108–125):
uniform over empty cells, normalised only when the sum reaches
`f32::EPSILON`, otherwise left as computed (all zeros). -/
def placeholderPolicy (env : Environment) (a : ℕ) : ℚ :=
  if fEPSILON ≤ rawPolicySum env then rawPolicy env a / rawPolicySum env
  else rawPolicy env a

/-- The number of empty cells of the board. -/
def emptyCellCount (env : Environment) : ℕ :=
  ((Finset.range boardCells).filter (fun a => env.isEmptyCell a = true)).card

lemma rawPolicySum_eq_card (env : Environment) :
    rawPolicySum env = (emptyCellCount env : ℚ) := by
  rw [rawPolicySum, emptyCellCount, Finset.card_filter]
  push_cast
  rfl

lemma fEPSILON_le_one : fEPSILON ≤ 1 := by decide

/-- C7: the placeholder policy of a newly expanded node assigns zero to
every occupied cell and the equal positive value `1/k` to every empty
cell, where `k` is the number of empty cells; the entries over the board
sum to 1 whenever an empty cell exists; and when no empty cell remains
the policy is left unnormalised, all zeros across the board. -/
theorem placeholderPolicy_uniform (env : Environment) :
    (∀ a, env.isEmptyCell a = false → placeholderPolicy env a = 0) ∧
    (∀ a, env.isEmptyCell a = true → emptyCellCount env ≠ 0 →
      placeholderPolicy env a = 1 / (emptyCellCount env : ℚ) ∧
        0 < placeholderPolicy env a) ∧
    (emptyCellCount env ≠ 0 →
      ∑ a ∈ Finset.range boardCells, placeholderPolicy env a = 1) ∧
    (emptyCellCount env = 0 → ∀ a, a < boardCells → placeholderPolicy env a = 0) := by
  have hsum := rawPolicySum_eq_card env
  refine ⟨?_, ?_, ?_, ?_⟩
  · intro a ha
    rw [placeholderPolicy, rawPolicy, ha]
    simp
  · intro a ha hk
    have hk1 : (1 : ℚ) ≤ (emptyCellCount env : ℚ) := by
      exact_mod_cast Nat.one_le_iff_ne_zero.mpr hk
    have hcond : fEPSILON ≤ rawPolicySum env := by
      rw [hsum]
      exact le_trans fEPSILON_le_one hk1
    rw [placeholderPolicy, if_pos hcond, rawPolicy, if_pos ha, hsum]
    constructor
    · rfl
    · positivity
  · intro hk
    have hk1 : (1 : ℚ) ≤ (emptyCellCount env : ℚ) := by
      exact_mod_cast Nat.one_le_iff_ne_zero.mpr hk
    have hcond : fEPSILON ≤ rawPolicySum env := by
      rw [hsum]
      exact le_trans fEPSILON_le_one hk1
    have hne : rawPolicySum env ≠ 0 := by
      rw [hsum]
      intro h
      rw [h] at hk1
      linarith
    calc ∑ a ∈ Finset.range boardCells, placeholderPolicy env a
        = ∑ a ∈ Finset.range boardCells, rawPolicy env a / rawPolicySum env := by
          refine Finset.sum_congr rfl fun a _ => ?_
          rw [placeholderPolicy, if_pos hcond]
      _ = (∑ a ∈ Finset.range boardCells, rawPolicy env a) / rawPolicySum env := by
          rw [Finset.sum_div]
      _ = 1 := by
          rw [← rawPolicySum]
          exact div_self hne
  · intro hk a ha
    have hempty : env.isEmptyCell a = false := by
      by_contra h
      have h' : env.isEmptyCell a = true := by
        cases he : env.isEmptyCell a
        · exact absurd he h
        · rfl
      have : a ∈ (Finset.range boardCells).filter (fun b => env.isEmptyCell b = true) := by
        rw [Finset.mem_filter, Finset.mem_range]
        exact ⟨ha, h'⟩
      have : 0 < emptyCellCount env := Finset.card_pos.mpr ⟨a, this⟩
      omega
    rw [placeholderPolicy, rawPolicy, hempty]
    simp

/-- Witness for C7: on the empty starting board, cell 0 is empty and gets
the positive uniform probability; there are 361 empty cells. -/
theorem placeholderPolicy_uniform_witness :
    placeholderPolicy Environment.new 0 = 1 / (emptyCellCount Environment.new : ℚ) ∧
      0 < placeholderPolicy Environment.new 0 :=
  (placeholderPolicy_uniform Environment.new).2.1 0 (by decide) (by decide)

/-! ## Executor round loop (C9) -/

/-- The `processed_count` loop of `ParallelMCTSExecutor::execute`
(lines 33–41): `processed` starts at 0; each iteration first stops when
`count ≤ processed`, else adds `batch_size` and runs one round.
Fuel-indexed so non-termination is expressible: the result is the number
of rounds run if the loop finishes within `fuel` iterations, else
`none`. -/
def execLoop (count batch_size : ℕ) : ℕ → ℕ → Option ℕ
  | 0, _ => none
  | fuel + 1, processed =>
    if count ≤ processed then some 0
    else
      match execLoop count batch_size fuel (processed + batch_size) with
      | some rounds => some (rounds + 1)
      | none => none

lemma execLoop_zero_batch (count : ℕ) :
    ∀ fuel processed, processed < count → execLoop count 0 fuel processed = none := by
  intro fuel
  induction fuel with
  | zero => intro processed _; rfl
  | succ fuel ih =>
    intro processed hp
    rw [execLoop, if_neg (by omega)]
    simp only [Nat.add_zero]
    rw [ih processed hp]

/-- C9 (counterexample): with `total_simulation_count = 1` and
`batch_size = 0` the loop never terminates — no fuel bound suffices — so
the claimed termination for every batch size fails. -/
theorem execLoop_diverges_on_zero_batch :
    ¬ ∃ fuel rounds, execLoop 1 0 fuel 0 = some rounds := by
  rintro ⟨fuel, rounds, h⟩
  rw [execLoop_zero_batch 1 fuel 0 (by omega)] at h
  exact Option.noConfusion h

lemma ceil_div_succ (x b : ℕ) (hb : 0 < b) (hx : 0 < x) :
    (x + b - 1) / b = (x - b + b - 1) / b + 1 := by
  have h1 : x + b - 1 = (x - 1) + b := by omega
  rw [h1, Nat.add_div_right _ hb]
  rcases le_or_lt x b with h | h
  · have h2 : x - b = 0 := by omega
    rw [h2]
    have h3 : (x - 1) / b = 0 := Nat.div_eq_of_lt (by omega)
    have h4 : (0 + b - 1) / b = 0 := Nat.div_eq_of_lt (by omega)
    rw [h3, h4]
  · have h2 : x - b + b - 1 = (x - b - 1) + b := by omega
    rw [h2, Nat.add_div_right _ hb]
    have h3 : x - 1 = (x - b - 1) + b := by omega
    rw [h3, Nat.add_div_right _ hb]

lemma execLoop_spec (count batch_size : ℕ) (hb : 0 < batch_size) :
    ∀ fuel processed,
      ((count - processed) + batch_size - 1) / batch_size + 1 ≤ fuel →
      execLoop count batch_size fuel processed =
        some (((count - processed) + batch_size - 1) / batch_size) := by
  intro fuel
  induction fuel with
  | zero => exact fun processed h => absurd h (Nat.not_succ_le_zero _)
  | succ fuel ih =>
    intro processed hfuel
    by_cases hstop : count ≤ processed
    · have h0 : count - processed = 0 := by omega
      rw [execLoop, if_pos hstop, h0, Nat.div_eq_of_lt (by omega)]
    · have hx : 0 < count - processed := by omega
      have hrec : count - (processed + batch_size) = (count - processed) - batch_size := by
        omega
      have hceil := ceil_div_succ (count - processed) batch_size hb hx
      rw [execLoop, if_neg hstop, ih (processed + batch_size) (by rw [hrec]; omega), hrec]
      rw [hceil]

/-- C9 (amended): for every `total_simulation_count` and every POSITIVE
`batch_size`, the loop starts from `processed = 0`, adds `batch_size` per
round while `processed < total_simulation_count`, and terminates having
run exactly `⌈total_simulation_count / batch_size⌉ =
(total_simulation_count + batch_size - 1) / batch_size` rounds; for
`batch_size = 0` and positive count it never terminates. -/
theorem execLoop_rounds (count batch_size : ℕ) (hb : 0 < batch_size) :
    execLoop count batch_size (count + 1) 0 =
      some ((count + batch_size - 1) / batch_size) := by
  have hle : (count + batch_size - 1) / batch_size ≤ count := by
    have h1 : count + batch_size - 1 ≤ count * batch_size + (batch_size - 1) := by
      have : count ≤ count * batch_size := Nat.le_mul_of_pos_right count hb
      omega
    have h2 : (count * batch_size + (batch_size - 1)) / batch_size
        = count + (batch_size - 1) / batch_size := by
      rw [Nat.mul_comm count batch_size, Nat.mul_add_div hb]
    have h3 : (batch_size - 1) / batch_size = 0 := Nat.div_eq_of_lt (by omega)
    calc (count + batch_size - 1) / batch_size
        ≤ (count * batch_size + (batch_size - 1)) / batch_size :=
          Nat.div_le_div_right h1
      _ = count := by
          rw [h2, h3]
          omega
  have h := execLoop_spec count batch_size hb (count + 1) 0
    (by simp only [Nat.sub_zero]; exact Nat.add_le_add_right hle 1)
  simp only [Nat.sub_zero] at h
  exact h

/-- Witness for C9's amended theorem: 7 simulations in batches of 3 take
exactly 3 rounds. -/
theorem execLoop_rounds_witness : execLoop 7 3 8 0 = some 3 := by
  have h := execLoop_rounds 7 3 (by omega)
  norm_num at h
  exact h

/-! ## Tree navigation and path-indexed updates

A node of a search tree is addressed by the list of child indices leading
to it from the root.  The simulation step of the executor is embedded as a
function of the tree and the selected leaf's path. -/

/-- The node reached from `t` by following the child indices in `path`. -/
def nodeAt : GTree → List ℕ → Option GTree
  | t, [] => some t
  | t, i :: rest =>
    match t.children.get? i with
    | some c => nodeAt c rest
    | none => none

/-- Replace the `i`-th element of a child list by `f` of it (identity when
`i` is out of range). -/
def modifyChild (f : GTree → GTree) : List GTree → ℕ → List GTree
  | [], _ => []
  | c :: cs, 0 => f c :: cs
  | c :: cs, i + 1 => c :: modifyChild f cs i

def GTree.setChildren : GTree → List GTree → GTree
  | .node n w p v a s _, cs => .node n w p v a s cs

/-- Apply `f` to the node at `path` (identity when the path is invalid). -/
def modifyAt (f : GTree → GTree) : GTree → List ℕ → GTree
  | t, [] => f t
  | t, i :: rest => t.setChildren (modifyChild (fun c => modifyAt f c rest) t.children i)

/-- Apply `f` to every node on the path from the root down to (and
including) the node at `path`. -/
def mapAlong (f : GTree → GTree) : GTree → List ℕ → GTree
  | t, [] => f t
  | t, i :: rest =>
    (f t).setChildren (modifyChild (fun c => mapAlong f c rest) (f t).children i)

/-- Add `d` to a node's virtual-loss counter (`fetch_add`/`fetch_sub`). -/
def GTree.addVLoss (d : ℤ) : GTree → GTree
  | .node n w p v a s c => .node n w p (v + d) a s c

/-- One backpropagation touch: `n += 1`, `w += val`. -/
def GTree.bumpNW (val : ℚ) : GTree → GTree
  | .node n w p v a s c => .node (n + 1) (w + val) p v a s c

/-- Overwrite a node's prior `p` (`child.p.store(...)`). -/
def GTree.setP (q : ℚ) : GTree → GTree
  | .node n w _ v a s c => .node n w q v a s c

/-- Overwrite the state's policy array
(`node.state.policy.write().copy_from_slice(p)`). -/
def GTree.setPolicy (pol : ℕ → ℚ) : GTree → GTree
  | .node n w p v a s c => .node n w p v a ⟨s.env, s.status, pol, s.z⟩ c

/-- Modelled from the spec (§4.2): `select_leaf` of the missing `mcts`
crate increments the virtual-loss counter of every node it attempts to
descend into, the returned leaf included. -/
def incrVLossAlong (t : GTree) (path : List ℕ) : GTree :=
  mapAlong (GTree.addVLoss 1) t path

/-- The executor's `node.v_loss.fetch_sub(1, Ordering::Relaxed)` on the
node at `path`. -/
def releaseVLossAt (t : GTree) (path : List ℕ) : GTree :=
  modifyAt (GTree.addVLoss (-1)) t path

/-- Modelled from the spec (§4.3): `Node::propagate(value)` of the missing
`mcts` crate walks from the node at `path` up to the root, incrementing
each visit count and adding the outcome value to each value sum (the value
is applied unadjusted at every level; the spec leaves the per-ply sign
convention open). -/
def propagateAt (val : ℚ) (t : GTree) (path : List ℕ) : GTree :=
  mapAlong (GTree.bumpNW val) t path

/-- Modelled from the spec (§4.2 step 5, §3 lifecycle): `MCTS::expand` of
the missing `mcts` crate inserts, under exclusive access, a new child for
`action` unless one with that action already exists (then `None`); the
new child starts with zero statistics and no virtual loss, its prior read
from the parent's current (placeholder) policy at the action, and owns
the given state. -/
def expandAt (t : GTree) (path : List ℕ) (action : ℕ) (st : BState) : Option GTree :=
  match nodeAt t path with
  | none => none
  | some leaf =>
    if leaf.children.any (fun c => decide (c.action = some action)) then none
    else
      some (modifyAt
        (fun u => u.setChildren
          (u.children ++ [GTree.node 0 0 (leaf.state.policy action) 0 (some action) st []]))
        t path)

/-- `NNEvalRequest`: the path of the freshly expanded node together with
its cached terminal reward (`none` when evaluator output is pending). -/
structure Request where
  path : List ℕ
  terminal_reward : Option ℚ
deriving DecidableEq

/-- The available-action computation of the executor (lines 71–88): the
board cells that are legal at the leaf's state
(`is_available_action`, modelled from the spec's per-cell legality query
as the environment's legality array) and not yet taken by one of the
leaf's children (the `bits` set). -/
def availableActions (leaf : GTree) : List ℕ :=
  (List.range boardCells).filter
    (fun a => leaf.state.env.legal_moves a
      && !(leaf.children.any (fun c => decide (c.action = some a))))

/-- The expansion phase of one simulation (executor lines 98–154), given
the tree `t1` whose virtual losses were already incremented by selection,
the path of the selected leaf, the leaf itself and the chosen action:
place the stone on a clone of the leaf's environment, derive the cached
terminal reward, compute the placeholder policy, attempt the expansion,
and on either outcome release the leaf's virtual loss; a Request is
created only when this thread's insertion succeeded. -/
def expandPhase (t1 : GTree) (path : List ℕ) (leaf : GTree) (action : ℕ) :
    GTree × Option Request :=
  let res := leaf.state.env.place_stone action
  let terminal_reward := terminalReward res.1
  let childState : BState :=
    { env := res.2
      status := res.1
      policy := placeholderPolicy res.2
      z := terminal_reward.getD 0 }
  match expandAt t1 path action childState with
  | some t2 =>
    (releaseVLossAt t2 path, some ⟨path ++ [leaf.children.length], terminal_reward⟩)
  | none => (releaseVLossAt t1 path, none)

/-- One full simulation attempt of a round (executor lines 50–154), with
the descent's result given by `path` and the random choice over available
actions abstracted as `rng`: increment virtual losses along the selected
path (modelled from the spec's `select_leaf`), then either take the
terminal shortcut (backpropagate the cached `z`, release the virtual
loss, no Request), give up when no action is available (release the
virtual loss, no Request), or run the expansion phase. -/
def simulate (rng : List ℕ → Option ℕ) (t : GTree) (path : List ℕ) :
    GTree × Option Request :=
  match nodeAt t path with
  | none => (t, none)
  | some leaf =>
    let t1 := incrVLossAlong t path
    if leaf.state.is_terminal then
      (releaseVLossAt (propagateAt leaf.state.z t1 path) path, none)
    else
      match rng (availableActions leaf) with
      | none => (releaseVLossAt t1 path, none)
      | some action => expandPhase t1 path leaf action

/-- The per-Request result distribution of the executor (lines 206–227):
write the slot's policy vector onto the Request's node's state, overwrite
the prior `p` of each existing child of that node with the vector's entry
at the child's action (the `unwrap` of the child's action is modelled as
`getD 0`; every child created by `expand` carries an action), then
backpropagate the reward — the cached terminal reward when present,
otherwise the evaluator's value `v`. -/
def processRequest (t : GTree) (req : Request) (pvec : ℕ → ℚ) (v : ℚ) : GTree :=
  let reward := req.terminal_reward.getD v
  let t2 := modifyAt
    (fun u => (u.setPolicy pvec).setChildren
      (u.children.map (fun c => c.setP (pvec (c.action.getD 0)))))
    t req.path
  propagateAt reward t2 req.path

/-! ### Navigation lemmas -/

lemma GTree.children_setChildren (t : GTree) (cs : List GTree) :
    (t.setChildren cs).children = cs := by
  cases t
  rfl

lemma modifyChild_get?_self (f : GTree → GTree) :
    ∀ (cs : List GTree) (i : ℕ), (modifyChild f cs i).get? i = (cs.get? i).map f := by
  intro cs
  induction cs with
  | nil => intro i; cases i <;> rfl
  | cons c cs ih =>
    intro i
    cases i with
    | zero => rfl
    | succ i => simpa [modifyChild] using ih i

lemma modifyChild_get?_ne (f : GTree → GTree) :
    ∀ (cs : List GTree) (i j : ℕ), i ≠ j → (modifyChild f cs i).get? j = cs.get? j := by
  intro cs
  induction cs with
  | nil => intro i j _; cases i <;> rfl
  | cons c cs ih =>
    intro i j hij
    cases i with
    | zero =>
      cases j with
      | zero => exact absurd rfl hij
      | succ j => rfl
    | succ i =>
      cases j with
      | zero => rfl
      | succ j => simpa [modifyChild] using ih i j (by omega)

lemma modifyChild_length (f : GTree → GTree) :
    ∀ (cs : List GTree) (i : ℕ), (modifyChild f cs i).length = cs.length := by
  intro cs
  induction cs with
  | nil => intro i; cases i <;> rfl
  | cons c cs ih =>
    intro i
    cases i with
    | zero => rfl
    | succ i => simpa [modifyChild] using ih i

lemma nodeAt_modifyAt_self (f : GTree → GTree) :
    ∀ (path : List ℕ) (t : GTree),
      nodeAt (modifyAt f t path) path = (nodeAt t path).map f := by
  intro path
  induction path with
  | nil => intro t; rfl
  | cons i rest ih =>
    intro t
    simp only [modifyAt, nodeAt, GTree.children_setChildren, modifyChild_get?_self]
    cases h : t.children.get? i with
    | none => simp
    | some c => simp [ih c]

lemma nodeAt_mapAlong_self (f : GTree → GTree) (hfc : ∀ u, (f u).children = u.children) :
    ∀ (path : List ℕ) (t : GTree),
      nodeAt (mapAlong f t path) path = (nodeAt t path).map f := by
  intro path
  induction path with
  | nil => intro t; rfl
  | cons i rest ih =>
    intro t
    simp only [mapAlong, nodeAt, GTree.children_setChildren, hfc, modifyChild_get?_self]
    cases h : t.children.get? i with
    | none => simp
    | some c => simp [ih c]

lemma proj_nodeAt_modifyAt {α : Type} (proj : GTree → α) (f : GTree → GTree)
    (hpf : ∀ u, proj (f u) = proj u)
    (hfc : ∀ u, (f u).children = u.children)
    (hproj : ∀ u cs, proj (u.setChildren cs) = proj u) :
    ∀ (path q : List ℕ) (t : GTree),
      (nodeAt (modifyAt f t path) q).map proj = (nodeAt t q).map proj := by
  intro path
  induction path with
  | nil =>
    intro q t
    cases q with
    | nil => simp [modifyAt, nodeAt, hpf]
    | cons j qs => simp only [modifyAt, nodeAt, hfc]
  | cons i rest ih =>
    intro q t
    cases q with
    | nil => simp [modifyAt, nodeAt, hproj]
    | cons j qs =>
      simp only [modifyAt, nodeAt, GTree.children_setChildren]
      by_cases hij : i = j
      · subst hij
        rw [modifyChild_get?_self]
        cases h : t.children.get? i with
        | none => simp
        | some c => simp [ih qs c]
      · rw [modifyChild_get?_ne _ _ _ _ hij]

lemma proj_nodeAt_mapAlong {α : Type} (proj : GTree → α) (f : GTree → GTree)
    (hpf : ∀ u, proj (f u) = proj u)
    (hfc : ∀ u, (f u).children = u.children)
    (hproj : ∀ u cs, proj (u.setChildren cs) = proj u) :
    ∀ (path q : List ℕ) (t : GTree),
      (nodeAt (mapAlong f t path) q).map proj = (nodeAt t q).map proj := by
  intro path
  induction path with
  | nil =>
    intro q t
    cases q with
    | nil => simp [mapAlong, nodeAt, hpf]
    | cons j qs => simp only [mapAlong, nodeAt, hfc]
  | cons i rest ih =>
    intro q t
    cases q with
    | nil =>
      simp only [mapAlong, nodeAt]
      simp [hproj, hpf]
    | cons j qs =>
      simp only [mapAlong, nodeAt, GTree.children_setChildren, hfc]
      by_cases hij : i = j
      · subst hij
        rw [modifyChild_get?_self]
        cases h : t.children.get? i with
        | none => simp
        | some c => simp [ih qs c]
      · rw [modifyChild_get?_ne _ _ _ _ hij]

lemma proj_nodeAt_mapAlong_upTo {α : Type} (proj : GTree → α) (f : GTree → GTree)
    (hfc : ∀ u, (f u).children = u.children)
    (hproj : ∀ u cs, proj (u.setChildren cs) = proj u) :
    ∀ (path : List ℕ) (k : ℕ) (t : GTree), k ≤ path.length →
      (nodeAt (mapAlong f t path) (path.take k)).map proj
        = (nodeAt t (path.take k)).map (fun u => proj (f u)) := by
  intro path
  induction path with
  | nil =>
    intro k t hk
    have hk0 : k = 0 := by simpa using hk
    subst hk0
    simp [mapAlong, nodeAt]
  | cons i rest ih =>
    intro k t hk
    cases k with
    | zero =>
      simp only [List.take_zero, mapAlong, nodeAt]
      simp [hproj]
    | succ k =>
      simp only [List.take_succ_cons, mapAlong, nodeAt, GTree.children_setChildren, hfc,
        modifyChild_get?_self]
      cases h : t.children.get? i with
      | none => simp
      | some c => simpa using ih k c (by simpa using hk)

lemma len_nodeAt_modifyAt (f : GTree → GTree) (hfc : ∀ u, (f u).children = u.children) :
    ∀ (path q : List ℕ) (t : GTree),
      (nodeAt (modifyAt f t path) q).map (fun u => u.children.length)
        = (nodeAt t q).map (fun u => u.children.length) := by
  intro path
  induction path with
  | nil =>
    intro q t
    cases q with
    | nil => simp [modifyAt, nodeAt, hfc]
    | cons j qs => simp only [modifyAt, nodeAt, hfc]
  | cons i rest ih =>
    intro q t
    cases q with
    | nil =>
      simp only [modifyAt, nodeAt]
      simp [GTree.children_setChildren, modifyChild_length]
    | cons j qs =>
      simp only [modifyAt, nodeAt, GTree.children_setChildren]
      by_cases hij : i = j
      · subst hij
        rw [modifyChild_get?_self]
        cases h : t.children.get? i with
        | none => simp
        | some c => simp [ih qs c]
      · rw [modifyChild_get?_ne _ _ _ _ hij]

lemma len_nodeAt_mapAlong (f : GTree → GTree) (hfc : ∀ u, (f u).children = u.children) :
    ∀ (path q : List ℕ) (t : GTree),
      (nodeAt (mapAlong f t path) q).map (fun u => u.children.length)
        = (nodeAt t q).map (fun u => u.children.length) := by
  intro path
  induction path with
  | nil =>
    intro q t
    cases q with
    | nil => simp [mapAlong, nodeAt, hfc]
    | cons j qs => simp only [mapAlong, nodeAt, hfc]
  | cons i rest ih =>
    intro q t
    cases q with
    | nil =>
      simp only [mapAlong, nodeAt]
      simp [GTree.children_setChildren, modifyChild_length, hfc]
    | cons j qs =>
      simp only [mapAlong, nodeAt, GTree.children_setChildren, hfc]
      by_cases hij : i = j
      · subst hij
        rw [modifyChild_get?_self]
        cases h : t.children.get? i with
        | none => simp
        | some c => simp [ih qs c]
      · rw [modifyChild_get?_ne _ _ _ _ hij]

/-! ### Per-field computation lemmas -/

lemma GTree.addVLoss_vLoss (d : ℤ) (u : GTree) : (u.addVLoss d).vLoss = u.vLoss + d := by
  cases u; rfl

lemma GTree.addVLoss_children (d : ℤ) (u : GTree) : (u.addVLoss d).children = u.children := by
  cases u; rfl

lemma GTree.addVLoss_n (d : ℤ) (u : GTree) : (u.addVLoss d).n = u.n := by
  cases u; rfl

lemma GTree.addVLoss_w (d : ℤ) (u : GTree) : (u.addVLoss d).w = u.w := by
  cases u; rfl

lemma GTree.addVLoss_p (d : ℤ) (u : GTree) : (u.addVLoss d).p = u.p := by
  cases u; rfl

lemma GTree.addVLoss_state (d : ℤ) (u : GTree) : (u.addVLoss d).state = u.state := by
  cases u; rfl

lemma GTree.bumpNW_n (val : ℚ) (u : GTree) : (u.bumpNW val).n = u.n + 1 := by
  cases u; rfl

lemma GTree.bumpNW_w (val : ℚ) (u : GTree) : (u.bumpNW val).w = u.w + val := by
  cases u; rfl

lemma GTree.bumpNW_vLoss (val : ℚ) (u : GTree) : (u.bumpNW val).vLoss = u.vLoss := by
  cases u; rfl

lemma GTree.bumpNW_p (val : ℚ) (u : GTree) : (u.bumpNW val).p = u.p := by
  cases u; rfl

lemma GTree.bumpNW_state (val : ℚ) (u : GTree) : (u.bumpNW val).state = u.state := by
  cases u; rfl

lemma GTree.bumpNW_children (val : ℚ) (u : GTree) : (u.bumpNW val).children = u.children := by
  cases u; rfl

lemma GTree.setP_p (q : ℚ) (u : GTree) : (u.setP q).p = q := by
  cases u; rfl

lemma GTree.setP_n (q : ℚ) (u : GTree) : (u.setP q).n = u.n := by
  cases u; rfl

lemma GTree.setP_w (q : ℚ) (u : GTree) : (u.setP q).w = u.w := by
  cases u; rfl

lemma GTree.setP_vLoss (q : ℚ) (u : GTree) : (u.setP q).vLoss = u.vLoss := by
  cases u; rfl

lemma GTree.setP_action (q : ℚ) (u : GTree) : (u.setP q).action = u.action := by
  cases u; rfl

lemma GTree.setP_state (q : ℚ) (u : GTree) : (u.setP q).state = u.state := by
  cases u; rfl

lemma GTree.setP_children (q : ℚ) (u : GTree) : (u.setP q).children = u.children := by
  cases u; rfl

lemma GTree.setPolicy_state (pol : ℕ → ℚ) (u : GTree) :
    (u.setPolicy pol).state = ⟨u.state.env, u.state.status, pol, u.state.z⟩ := by
  cases u; rfl

lemma GTree.setPolicy_children (pol : ℕ → ℚ) (u : GTree) :
    (u.setPolicy pol).children = u.children := by
  cases u; rfl

lemma GTree.setPolicy_n (pol : ℕ → ℚ) (u : GTree) : (u.setPolicy pol).n = u.n := by
  cases u; rfl

lemma GTree.setPolicy_w (pol : ℕ → ℚ) (u : GTree) : (u.setPolicy pol).w = u.w := by
  cases u; rfl

lemma GTree.setPolicy_vLoss (pol : ℕ → ℚ) (u : GTree) : (u.setPolicy pol).vLoss = u.vLoss := by
  cases u; rfl

lemma GTree.setChildren_n (u : GTree) (cs : List GTree) : (u.setChildren cs).n = u.n := by
  cases u; rfl

lemma GTree.setChildren_w (u : GTree) (cs : List GTree) : (u.setChildren cs).w = u.w := by
  cases u; rfl

lemma GTree.setChildren_p (u : GTree) (cs : List GTree) : (u.setChildren cs).p = u.p := by
  cases u; rfl

lemma GTree.setChildren_vLoss (u : GTree) (cs : List GTree) :
    (u.setChildren cs).vLoss = u.vLoss := by
  cases u; rfl

lemma GTree.setChildren_state (u : GTree) (cs : List GTree) :
    (u.setChildren cs).state = u.state := by
  cases u; rfl

/-- Preservation of a projection across a `modifyAt` whose update maps the
target's children elementwise by a projection- and children-preserving
function. -/
lemma proj_nodeAt_modifyAt_mapChildren {α : Type} (proj : GTree → α)
    (f : GTree → GTree) (h : GTree → GTree)
    (hpf : ∀ u, proj (f u) = proj u)
    (hfc : ∀ u, (f u).children = u.children.map h)
    (hph : ∀ c, proj (h c) = proj c)
    (hhc : ∀ c, (h c).children = c.children)
    (hproj : ∀ u cs, proj (u.setChildren cs) = proj u) :
    ∀ (path q : List ℕ) (t : GTree),
      (nodeAt (modifyAt f t path) q).map proj = (nodeAt t q).map proj := by
  intro path
  induction path with
  | nil =>
    intro q t
    cases q with
    | nil => simp [modifyAt, nodeAt, hpf]
    | cons j qs =>
      simp only [modifyAt, nodeAt, hfc, List.get?_map]
      cases hc : t.children.get? j with
      | none => simp
      | some c =>
        simp only [Option.map_some]
        have := proj_nodeAt_modifyAt proj h hph hhc hproj [] qs c
        simpa [modifyAt] using this
  | cons i rest ih =>
    intro q t
    cases q with
    | nil => simp [modifyAt, nodeAt, hproj]
    | cons j qs =>
      simp only [modifyAt, nodeAt, GTree.children_setChildren]
      by_cases hij : i = j
      · subst hij
        rw [modifyChild_get?_self]
        cases h' : t.children.get? i with
        | none => simp
        | some c => simp [ih qs c]
      · rw [modifyChild_get?_ne _ _ _ _ hij]

/-! ### Virtual-loss accounting -/

lemma vLossAt_incr (t : GTree) (path : List ℕ) :
    (nodeAt (incrVLossAlong t path) path).map GTree.vLoss
      = (nodeAt t path).map (fun u => u.vLoss + 1) := by
  rw [incrVLossAlong, nodeAt_mapAlong_self _ (GTree.addVLoss_children 1)]
  cases nodeAt t path <;> simp [GTree.addVLoss_vLoss]

lemma vLossAt_release (t : GTree) (path : List ℕ) :
    (nodeAt (releaseVLossAt t path) path).map GTree.vLoss
      = (nodeAt t path).map (fun u => u.vLoss + (-1)) := by
  rw [releaseVLossAt, nodeAt_modifyAt_self]
  cases nodeAt t path <;> simp [GTree.addVLoss_vLoss]

lemma vLossAt_propagate (v : ℚ) (t : GTree) (path q : List ℕ) :
    (nodeAt (propagateAt v t path) q).map GTree.vLoss = (nodeAt t q).map GTree.vLoss :=
  proj_nodeAt_mapAlong GTree.vLoss _ (GTree.bumpNW_vLoss v) (GTree.bumpNW_children v)
    GTree.setChildren_vLoss path q t

lemma proj_nodeAt_expandAt {α : Type} (proj : GTree → α)
    (hproj : ∀ u cs, proj (u.setChildren cs) = proj u)
    (t t2 : GTree) (path : List ℕ) (action : ℕ) (st : BState)
    (h : expandAt t path action st = some t2) :
    (nodeAt t2 path).map proj = (nodeAt t path).map proj := by
  rw [expandAt] at h
  cases hleaf : nodeAt t path with
  | none =>
    rw [hleaf] at h
    exact Option.noConfusion h
  | some leaf =>
    rw [hleaf] at h
    dsimp only at h
    by_cases hdup : leaf.children.any (fun c => decide (c.action = some action)) = true
    · rw [if_pos hdup] at h
      exact Option.noConfusion h
    · rw [if_neg hdup] at h
      injection h with h2
      rw [← h2, nodeAt_modifyAt_self, hleaf]
      simp [hproj]

lemma vLossAt_expandPhase (t1 : GTree) (path : List ℕ) (leaf : GTree) (action : ℕ) :
    (nodeAt (expandPhase t1 path leaf action).1 path).map GTree.vLoss
      = (nodeAt t1 path).map (fun u => u.vLoss + (-1)) := by
  rw [expandPhase]
  split
  · next t2 h =>
    dsimp only
    rw [vLossAt_release,
      proj_nodeAt_expandAt (fun u => u.vLoss + (-1))
        (fun u cs => by simp only [GTree.setChildren_vLoss]) t1 t2 path action _ h]
  · next h =>
    dsimp only
    rw [vLossAt_release]

/-- C2 (amended): across every code path of a simulation attempt —
terminal shortcut, no-available-action, duplicate-expansion race, and
successful expansion — the net effect on the selected leaf's virtual-loss
counter is zero: the increment performed at selection is matched by
exactly one release.  On the successful (evaluator-pending) path that
release happens at expansion time; the post-evaluation result
distribution (`processRequest`) performs no virtual-loss release at any
node. -/
theorem virtual_loss_single_release (rng : List ℕ → Option ℕ) (t : GTree) (path : List ℕ) :
    (nodeAt (simulate rng t path).1 path).map GTree.vLoss
      = (nodeAt t path).map GTree.vLoss ∧
    (∀ (t2 : GTree) (req : Request) (pvec : ℕ → ℚ) (v : ℚ) (q : List ℕ),
      (nodeAt (processRequest t2 req pvec v) q).map GTree.vLoss
        = (nodeAt t2 q).map GTree.vLoss) := by
  constructor
  · rw [simulate]
    cases hleaf : nodeAt t path with
    | none =>
      dsimp only
      rw [hleaf]
    | some leaf =>
      dsimp only
      by_cases hterm : leaf.state.is_terminal = true
      · rw [if_pos hterm]
        rw [vLossAt_release, propagateAt, proj_nodeAt_mapAlong (fun u => u.vLoss + (-1)) _
            (fun u => by simp only [GTree.bumpNW_vLoss]) (GTree.bumpNW_children _)
            (fun u cs => by simp only [GTree.setChildren_vLoss]),
          incrVLossAlong, nodeAt_mapAlong_self _ (GTree.addVLoss_children 1), hleaf]
        simp only [Option.map_some', GTree.addVLoss_vLoss, Option.some.injEq]
        omega
      · rw [if_neg hterm]
        cases hr : rng (availableActions leaf) with
        | none =>
          rw [vLossAt_release, incrVLossAlong,
            nodeAt_mapAlong_self _ (GTree.addVLoss_children 1), hleaf]
          simp only [Option.map_some', GTree.addVLoss_vLoss, Option.some.injEq]
          omega
        | some action =>
          rw [vLossAt_expandPhase, incrVLossAlong,
            nodeAt_mapAlong_self _ (GTree.addVLoss_children 1), hleaf]
          simp only [Option.map_some', GTree.addVLoss_vLoss, Option.some.injEq]
          omega
  · intro t2 req pvec v q
    rw [processRequest]
    rw [vLossAt_propagate]
    exact proj_nodeAt_modifyAt_mapChildren GTree.vLoss _
      (fun c => GTree.setP (pvec (c.action.getD 0)) c)
      (fun u => by simp only [GTree.setChildren_vLoss, GTree.setPolicy_vLoss])
      (fun u => by simp only [GTree.children_setChildren])
      (fun c => GTree.setP_vLoss _ c)
      (fun c => GTree.setP_children _ c)
      GTree.setChildren_vLoss req.path q t2

/-- The one-node tree used in concrete executor scenarios: the root of a
fresh game, zero statistics, no children. -/
def rootOnly : GTree := GTree.node 0 0 0 0 none dummyState []

/-- C2 (counterexample): one simulation on a fresh one-node tree produces
an evaluator-pending Request (terminal reward `none`), yet the selected
leaf's virtual loss is already back at its initial value 0 before any
evaluation — it was released at expansion time (executor line 139) — and
distributing the evaluation result afterwards changes no virtual-loss
counter (the root and the Request's node both stay at 0).  This refutes
the claim that a pending Request's virtual loss is released exactly once
after the evaluation round returns and never at expansion time. -/
theorem virtual_loss_pending_cex :
    (simulate (fun l => l.head?) rootOnly []).2 = some ⟨[0], none⟩ ∧
    (nodeAt (simulate (fun l => l.head?) rootOnly []).1 []).map GTree.vLoss = some 0 ∧
    (nodeAt (processRequest (simulate (fun l => l.head?) rootOnly []).1 ⟨[0], none⟩
        (fun _ => 0) 0) []).map GTree.vLoss = some 0 ∧
    (nodeAt (processRequest (simulate (fun l => l.head?) rootOnly []).1 ⟨[0], none⟩
        (fun _ => 0) 0) [0]).map GTree.vLoss = some 0 ∧
    (nodeAt (simulate (fun l => l.head?) rootOnly []).1 [0]).map GTree.vLoss = some 0 := by
  refine ⟨by decide, by decide, by decide, by decide, by decide⟩

/-- C3: for a processed Request, the slot's per-action policy vector is
written onto the Request's node's state as its authoritative prior
distribution (overwriting the placeholder), and the prior `p` of every
already-existing child of that node is overwritten with the same returned
vector's entry at the child's action; the children's actions and visit
counts are untouched; the node then receives one backpropagation touch
with the cached terminal reward when present, else the slot's value. -/
theorem processRequest_policy_overwrite (t : GTree) (path : List ℕ) (nd : GTree)
    (hnode : nodeAt t path = some nd) (tr : Option ℚ) (pvec : ℕ → ℚ) (v : ℚ) :
    (nodeAt (processRequest t ⟨path, tr⟩ pvec v) path).map (fun u => u.state.policy)
      = some pvec ∧
    (nodeAt (processRequest t ⟨path, tr⟩ pvec v) path).map (fun u => u.children.map GTree.p)
      = some (nd.children.map (fun c => pvec (c.action.getD 0))) ∧
    (nodeAt (processRequest t ⟨path, tr⟩ pvec v) path).map
        (fun u => u.children.map GTree.action)
      = some (nd.children.map GTree.action) ∧
    (nodeAt (processRequest t ⟨path, tr⟩ pvec v) path).map (fun u => u.children.map GTree.n)
      = some (nd.children.map GTree.n) ∧
    (nodeAt (processRequest t ⟨path, tr⟩ pvec v) path).map GTree.n = some (nd.n + 1) ∧
    (nodeAt (processRequest t ⟨path, tr⟩ pvec v) path).map GTree.w
      = some (nd.w + tr.getD v) := by
  have hmain : nodeAt (processRequest t ⟨path, tr⟩ pvec v) path
      = some (((nd.setPolicy pvec).setChildren
          (nd.children.map (fun c => c.setP (pvec (c.action.getD 0))))).bumpNW (tr.getD v)) := by
    rw [processRequest]
    dsimp only
    rw [propagateAt, nodeAt_mapAlong_self _ (GTree.bumpNW_children _),
      nodeAt_modifyAt_self, hnode]
    rfl
  rw [hmain]
  refine ⟨?_, ?_, ?_, ?_, ?_, ?_⟩
  · simp [GTree.bumpNW_state, GTree.setChildren_state, GTree.setPolicy_state]
  · simp [GTree.bumpNW_children, GTree.children_setChildren, List.map_map, Function.comp,
      GTree.setP_p]
  · simp [GTree.bumpNW_children, GTree.children_setChildren, List.map_map, Function.comp,
      GTree.setP_action]
  · simp [GTree.bumpNW_children, GTree.children_setChildren, List.map_map, Function.comp,
      GTree.setP_n]
  · simp [GTree.bumpNW_n, GTree.setChildren_n, GTree.setPolicy_n]
  · simp [GTree.bumpNW_w, GTree.setChildren_w, GTree.setPolicy_w]

/-- A child produced by action 4, for concrete scenarios. -/
def childFour : GTree := GTree.node 0 0 0 0 (some 4) dummyState []

/-- A node holding one existing child, for concrete scenarios. -/
def parentOne : GTree := GTree.node 0 0 0 0 none dummyState [childFour]

/-- Witness for C3 at a concrete one-child node. -/
theorem processRequest_policy_overwrite_witness :
    (nodeAt (processRequest parentOne ⟨[], none⟩ (fun _ => 1) 0) []).map
        (fun u => u.children.map GTree.p) = some [1] := by
  have h := (processRequest_policy_overwrite parentOne [] parentOne rfl
    none (fun _ => 1) 0).2.1
  simpa [parentOne, childFour] using h

/-- C4: when the selected leaf's state is terminal, the simulation adds no
child to the leaf (its child list is returned unchanged), creates no
evaluator Request, immediately backpropagates the leaf's cached outcome
`z` (every node on the selected path gains exactly one visit and `z`
value), and the leaf's virtual loss is released, leaving it net
unchanged across the attempt.  (`select_leaf` and `propagate` of the
missing `mcts` crate are modelled from the spec.) -/
theorem terminal_leaf_shortcut (rng : List ℕ → Option ℕ) (t : GTree) (path : List ℕ)
    (leaf : GTree) (hleaf : nodeAt t path = some leaf)
    (hterm : leaf.state.is_terminal = true) :
    (simulate rng t path).2 = none ∧
    (nodeAt (simulate rng t path).1 path).map GTree.children = some leaf.children ∧
    (nodeAt (simulate rng t path).1 path).map GTree.vLoss
      = (nodeAt t path).map GTree.vLoss ∧
    (∀ k, k ≤ path.length →
      (nodeAt (simulate rng t path).1 (path.take k)).map GTree.n
        = (nodeAt t (path.take k)).map (fun u => u.n + 1) ∧
      (nodeAt (simulate rng t path).1 (path.take k)).map GTree.w
        = (nodeAt t (path.take k)).map (fun u => u.w + leaf.state.z)) := by
  have hsim : simulate rng t path
      = (releaseVLossAt (propagateAt leaf.state.z (incrVLossAlong t path) path) path,
          none) := by
    rw [simulate, hleaf]
    dsimp only
    rw [if_pos hterm]
  refine ⟨by rw [hsim], ?_, ?_, ?_⟩
  · rw [hsim]
    dsimp only
    rw [releaseVLossAt, nodeAt_modifyAt_self, propagateAt,
      nodeAt_mapAlong_self _ (GTree.bumpNW_children _), incrVLossAlong,
      nodeAt_mapAlong_self _ (GTree.addVLoss_children 1), hleaf]
    simp [GTree.addVLoss_children, GTree.bumpNW_children]
  · rw [hsim]
    dsimp only
    rw [vLossAt_release, propagateAt, proj_nodeAt_mapAlong (fun u => u.vLoss + (-1)) _
        (fun u => by simp only [GTree.bumpNW_vLoss]) (GTree.bumpNW_children _)
        (fun u cs => by simp only [GTree.setChildren_vLoss]),
      incrVLossAlong, nodeAt_mapAlong_self _ (GTree.addVLoss_children 1), hleaf]
    simp only [Option.map_some', GTree.addVLoss_vLoss, Option.some.injEq]
    omega
  · intro k hk
    constructor
    · rw [hsim]
      dsimp only
      rw [releaseVLossAt,
        proj_nodeAt_modifyAt GTree.n _ (GTree.addVLoss_n _) (GTree.addVLoss_children _)
          GTree.setChildren_n,
        propagateAt,
        proj_nodeAt_mapAlong_upTo GTree.n _ (GTree.bumpNW_children _)
          GTree.setChildren_n path k _ hk,
        incrVLossAlong,
        proj_nodeAt_mapAlong (fun u => (u.bumpNW leaf.state.z).n) _
          (fun u => by simp only [GTree.bumpNW_n, GTree.addVLoss_n])
          (GTree.addVLoss_children _)
          (fun u cs => by simp only [GTree.bumpNW_n, GTree.setChildren_n])]
      cases nodeAt t (path.take k) <;> simp [GTree.bumpNW_n]
    · rw [hsim]
      dsimp only
      rw [releaseVLossAt,
        proj_nodeAt_modifyAt GTree.w _ (GTree.addVLoss_w _) (GTree.addVLoss_children _)
          GTree.setChildren_w,
        propagateAt,
        proj_nodeAt_mapAlong_upTo GTree.w _ (GTree.bumpNW_children _)
          GTree.setChildren_w path k _ hk,
        incrVLossAlong,
        proj_nodeAt_mapAlong (fun u => (u.bumpNW leaf.state.z).w) _
          (fun u => by simp only [GTree.bumpNW_w, GTree.addVLoss_w])
          (GTree.addVLoss_children _)
          (fun u cs => by simp only [GTree.bumpNW_w, GTree.setChildren_w])]
      cases nodeAt t (path.take k) <;> simp [GTree.bumpNW_w]

/-- A terminal (already-won) root state, for concrete scenarios. -/
def wonState : BState :=
  { env := Environment.new
    status := GameStatus.BlackWin
    policy := fun _ => 0
    z := 1 }

/-- A one-node tree whose root is terminal, for concrete scenarios. -/
def wonRoot : GTree := GTree.node 0 0 0 0 none wonState []

/-- Witness for C4 at a one-node tree with a terminal root. -/
theorem terminal_leaf_shortcut_witness :
    (simulate (fun l => l.head?) wonRoot []).2 = none ∧
    (nodeAt (simulate (fun l => l.head?) wonRoot []).1 []).map GTree.children
      = some wonRoot.children := by
  have h := terminal_leaf_shortcut (fun l => l.head?) wonRoot [] wonRoot rfl (by decide)
  exact ⟨h.1, h.2.1⟩

/-- C8: when the selected leaf is non-terminal but no legal action remains
that is not already represented among its children (the available-action
list is empty, so the random draw returns `None`), the simulation attempt
releases the leaf's virtual loss (net unchanged across the attempt) and
terminates without creating a Request and without modifying any other
statistics: every node's visit count, value sum, prior, state and child
count are untouched. -/
theorem exhausted_actions_noop (rng : List ℕ → Option ℕ) (t : GTree) (path : List ℕ)
    (leaf : GTree) (hleaf : nodeAt t path = some leaf)
    (hterm : leaf.state.is_terminal = false)
    (hempty : availableActions leaf = [])
    (hrng : rng [] = none) :
    (simulate rng t path).2 = none ∧
    (nodeAt (simulate rng t path).1 path).map GTree.vLoss
      = (nodeAt t path).map GTree.vLoss ∧
    (∀ q, (nodeAt (simulate rng t path).1 q).map GTree.n = (nodeAt t q).map GTree.n) ∧
    (∀ q, (nodeAt (simulate rng t path).1 q).map GTree.w = (nodeAt t q).map GTree.w) ∧
    (∀ q, (nodeAt (simulate rng t path).1 q).map GTree.p = (nodeAt t q).map GTree.p) ∧
    (∀ q, (nodeAt (simulate rng t path).1 q).map GTree.state
      = (nodeAt t q).map GTree.state) ∧
    (∀ q, (nodeAt (simulate rng t path).1 q).map (fun u => u.children.length)
      = (nodeAt t q).map (fun u => u.children.length)) := by
  have hsim : simulate rng t path = (releaseVLossAt (incrVLossAlong t path) path, none) := by
    rw [simulate, hleaf]
    dsimp only
    rw [if_neg (by simp [hterm]), hempty, hrng]
  refine ⟨by rw [hsim], ?_, ?_, ?_, ?_, ?_, ?_⟩
  · rw [hsim]
    dsimp only
    rw [vLossAt_release, incrVLossAlong,
      nodeAt_mapAlong_self _ (GTree.addVLoss_children 1), hleaf]
    simp only [Option.map_some', GTree.addVLoss_vLoss, Option.some.injEq]
    omega
  · intro q
    rw [hsim]
    dsimp only
    rw [releaseVLossAt,
      proj_nodeAt_modifyAt GTree.n _ (GTree.addVLoss_n _) (GTree.addVLoss_children _)
        GTree.setChildren_n,
      incrVLossAlong,
      proj_nodeAt_mapAlong GTree.n _ (GTree.addVLoss_n _) (GTree.addVLoss_children _)
        GTree.setChildren_n]
  · intro q
    rw [hsim]
    dsimp only
    rw [releaseVLossAt,
      proj_nodeAt_modifyAt GTree.w _ (GTree.addVLoss_w _) (GTree.addVLoss_children _)
        GTree.setChildren_w,
      incrVLossAlong,
      proj_nodeAt_mapAlong GTree.w _ (GTree.addVLoss_w _) (GTree.addVLoss_children _)
        GTree.setChildren_w]
  · intro q
    rw [hsim]
    dsimp only
    rw [releaseVLossAt,
      proj_nodeAt_modifyAt GTree.p _ (GTree.addVLoss_p _) (GTree.addVLoss_children _)
        GTree.setChildren_p,
      incrVLossAlong,
      proj_nodeAt_mapAlong GTree.p _ (GTree.addVLoss_p _) (GTree.addVLoss_children _)
        GTree.setChildren_p]
  · intro q
    rw [hsim]
    dsimp only
    rw [releaseVLossAt,
      proj_nodeAt_modifyAt GTree.state _ (GTree.addVLoss_state _) (GTree.addVLoss_children _)
        GTree.setChildren_state,
      incrVLossAlong,
      proj_nodeAt_mapAlong GTree.state _ (GTree.addVLoss_state _) (GTree.addVLoss_children _)
        GTree.setChildren_state]
  · intro q
    rw [hsim]
    dsimp only
    rw [releaseVLossAt, len_nodeAt_modifyAt _ (GTree.addVLoss_children _),
      incrVLossAlong, len_nodeAt_mapAlong _ (GTree.addVLoss_children _)]

/-- A state whose game is in progress but whose legality array admits no
move, for concrete scenarios. -/
def stuckState : BState :=
  { env := { turn := Turn.Black
             board := fun _ => 0
             legal_moves := fun _ => false
             legal_move_count := 0 }
    status := GameStatus.InProgress
    policy := fun _ => 0
    z := 0 }

/-- A one-node tree whose root admits no available action. -/
def stuckRoot : GTree := GTree.node 0 0 0 0 none stuckState []

/-- Witness for C8 at a one-node tree with no available action. -/
theorem exhausted_actions_noop_witness :
    (simulate (fun l => l.head?) stuckRoot []).2 = none ∧
    (nodeAt (simulate (fun l => l.head?) stuckRoot []).1 []).map GTree.vLoss
      = (nodeAt stuckRoot []).map GTree.vLoss := by
  have h := exhausted_actions_noop (fun l => l.head?) stuckRoot [] stuckRoot rfl
    (by decide) (by decide) rfl
  exact ⟨h.1, h.2.1⟩

end OmokAI
